import Mathlib

/-!
Verification of the hierarchy-reconciliation and overlap-aggregation engine of
the Zotero library comparison tool (`zotero_analyzer_website_hierarchy.py` and
`parse_website_hierarchy.py`).

The Python source is shallowly embedded: pure functions become Lean functions
over `List`/`String`/`Option`, pandas DataFrames become lists of records,
Python dicts become association lists preserving insertion order, Python sets
become `Finset`s, and float percentages become rationals.  Character classes
model the ASCII fragment of Python's `str.lower`, `\w`, `\s` and `str.split()`
(the inputs exercised by the tool are ASCII titles and paths).
-/

namespace ZoteroComp

/-! ### Character classes (ASCII fragment of Python regex classes)

`Char.toLower` in Lean core lowers exactly the basic latin letters, matching
Python `str.lower` on ASCII.  `Char.isWhitespace` covers space, tab, CR, LF,
matching the whitespace characters `str.split()` and `\s` act on in the
tool's ASCII inputs. -/

/-- Python `\w` on ASCII: alphanumeric or underscore.  Note that this is NOT
the same as "alphanumeric": the underscore is a word character. -/
def isWordChar (c : Char) : Bool := c.isAlphanum || c == '_'

/-- Python `\s` on ASCII (as exercised by the tool's inputs). -/
def isSpaceChar (c : Char) : Bool := c.isWhitespace

/-- The space character U+0020, the separator used by `' '.join`. -/
def spaceChar : Char := Char.ofNat 32

/-! ### Python `str.split()` with no arguments

`title.split()` splits on runs of whitespace and discards empty pieces.
`wordsAux l acc` scans `l` with the (reversed) current word in `acc`. -/

/-- Scanner for Python `str.split()`: `acc` holds the current word reversed. -/
def wordsAux : List Char → List Char → List (List Char)
  | [], acc => if acc.isEmpty then [] else [acc.reverse]
  | c :: rest, acc =>
    if isSpaceChar c then
      if acc.isEmpty then wordsAux rest [] else acc.reverse :: wordsAux rest []
    else
      wordsAux rest (c :: acc)

/-- Python `s.split()` (no separator argument) on a character list. -/
def pySplit (l : List Char) : List (List Char) := wordsAux l []

/-- Python `' '.join(ws)` on character lists. -/
def joinSp : List (List Char) → List Char
  | [] => []
  | [w] => w
  | w :: ws => w ++ spaceChar :: joinSp ws

/-- The character filter of `re.sub(r'[^\w\s]', '', ...)`: keep word
characters and whitespace, drop everything else. -/
def stripNonWord (l : List Char) : List Char :=
  l.filter (fun c => isWordChar c || isSpaceChar c)

/-- Character-list core of `normalize_title`: lower-case, strip the
characters matched by `[^\w\s]`, then `' '.join(x.split())`. -/
def normalizeChars (l : List Char) : List Char :=
  joinSp (pySplit (stripNonWord (l.map Char.toLower)))

/-- Embedding of `ZoteroLibraryAnalyzer.normalize_title`
(`zotero_analyzer_website_hierarchy.py` lines 72-89).  The `if not title`
guard returns the empty string for empty (or absent) input. -/
def normalize_title (s : String) : String :=
  if s = "" then "" else String.mk (normalizeChars s.data)

/-! ### The spec's normalization algorithm, for comparison

Modelled from the spec: "lower-case; strip all characters that are not
alphanumeric or whitespace; collapse any run of whitespace to a single
space; trim".  The strip set here is alphanumeric-or-whitespace, exactly as
the spec words it (no underscore). -/

/-- The spec's keep-set: alphanumeric or whitespace (underscore excluded). -/
def keepSpecChar (c : Char) : Bool := c.isAlphanum || isSpaceChar c

/-- Collapse every run of whitespace to a single space; the flag records
whether the previous emitted character was the collapsed space. -/
def collapseWsAux : List Char → Bool → List Char
  | [], _ => []
  | c :: rest, prevWs =>
    if isSpaceChar c then
      if prevWs then collapseWsAux rest true else spaceChar :: collapseWsAux rest true
    else
      c :: collapseWsAux rest false

/-- Collapse runs of whitespace to single spaces. -/
def collapseWs (l : List Char) : List Char := collapseWsAux l false

/-- Trim leading and trailing whitespace. -/
def trimWs (l : List Char) : List Char :=
  ((l.dropWhile isSpaceChar).reverse.dropWhile isSpaceChar).reverse

/-- Modelled from the spec: the normalization algorithm exactly as the spec
states it (strip set = alphanumeric or whitespace). -/
def normalizeTitleSpec (s : String) : String :=
  String.mk (trimWs (collapseWs ((s.data.map Char.toLower).filter keepSpecChar)))

example : normalize_title ("Climate  Change!!") = ("climate change") := by decide
example : normalizeTitleSpec ("Climate  Change!!") = ("climate change") := by decide
example : normalize_title ("a_b") = ("a_b") := by decide
example : normalizeTitleSpec ("a_b") = ("ab") := by decide

/-! ### Character-level lemmas -/

theorem space_isSpace : isSpaceChar spaceChar = true := by decide

theorem space_char_cases {c : Char} (h : isSpaceChar c = true) :
    c = spaceChar ∨ c = Char.ofNat 9 ∨ c = Char.ofNat 13 ∨ c = Char.ofNat 10 := by
  simp only [isSpaceChar, Char.isWhitespace, Bool.or_eq_true, decide_eq_true_eq] at h
  rcases h with ((h | h) | h) | h <;> subst h <;> decide

theorem word_not_space {c : Char} (h : isWordChar c = true) : isSpaceChar c = false := by
  by_contra hs
  rw [Bool.not_eq_false] at hs
  rcases space_char_cases hs with hv | hv | hv | hv <;> subst hv <;> exact absurd h (by decide)

theorem toNat_ofNat_valid {n : Nat} (h : n.isValidChar) : (Char.ofNat n).toNat = n := by
  simp only [Char.ofNat, dif_pos h, Char.ofNatAux, Char.toNat]
  rfl

theorem toLower_eq_self {c : Char} (h : ¬(65 ≤ c.toNat ∧ c.toNat ≤ 90)) :
    Char.toLower c = c := by
  show (if c.toNat ≥ 65 ∧ c.toNat ≤ 90 then Char.ofNat (c.toNat + 32) else c) = c
  rw [if_neg h]

theorem toLower_idem (c : Char) :
    Char.toLower (Char.toLower c) = Char.toLower c := by
  by_cases h : 65 ≤ c.toNat ∧ c.toNat ≤ 90
  · have hval : (c.toNat + 32).isValidChar := by
      left; omega
    have h1 : Char.toLower c = Char.ofNat (c.toNat + 32) := by
      show (if c.toNat ≥ 65 ∧ c.toNat ≤ 90 then Char.ofNat (c.toNat + 32) else c) = _
      rw [if_pos h]
    have h2 : (Char.toLower c).toNat = c.toNat + 32 := by
      rw [h1]; exact toNat_ofNat_valid hval
    apply toLower_eq_self
    rw [h2]; omega
  · rw [toLower_eq_self h, toLower_eq_self h]

theorem toLower_space : Char.toLower spaceChar = spaceChar := by decide

/-! ### Lemmas about `pySplit` and `joinSp` -/

theorem wordsAux_join (l : List Char) :
    ∀ acc, (wordsAux l acc).flatten
      = acc.reverse ++ l.filter (fun c => !(isSpaceChar c)) := by
  induction l with
  | nil =>
    intro acc
    by_cases h : acc.isEmpty
    · simp [wordsAux, h, List.isEmpty_iff.mp h]
    · simp [wordsAux, h]
  | cons c rest ih =>
    intro acc
    cases hs : isSpaceChar c with
    | true =>
      by_cases h : acc.isEmpty
      · simp [wordsAux, hs, h, ih, List.isEmpty_iff.mp h]
      · simp [wordsAux, hs, h, ih]
    | false =>
      simp [wordsAux, hs, ih]

theorem wordsAux_mem (l : List Char) :
    ∀ acc, (∀ c ∈ acc, isSpaceChar c = false) →
      ∀ w ∈ wordsAux l acc,
        w ≠ [] ∧ ∀ c ∈ w, isSpaceChar c = false ∧ (c ∈ l ∨ c ∈ acc) := by
  induction l with
  | nil =>
    intro acc hacc w hw
    rw [wordsAux] at hw
    by_cases h : acc.isEmpty
    · simp [h] at hw
    · simp [h] at hw
      subst hw
      refine ⟨by simpa using fun h2 => h (by simp [h2]), ?_⟩
      intro c hc
      rw [List.mem_reverse] at hc
      exact ⟨hacc c hc, Or.inr hc⟩
  | cons d rest ih =>
    intro acc hacc w hw
    rw [wordsAux] at hw
    cases hs : isSpaceChar d with
    | true =>
      rw [if_pos (by simp [hs])] at hw
      by_cases h : acc.isEmpty
      · rw [if_pos h] at hw
        have := ih [] (by simp) w hw
        exact ⟨this.1, fun c hc => ⟨(this.2 c hc).1, by
          rcases (this.2 c hc).2 with h2 | h2
          · exact Or.inl (List.mem_cons_of_mem _ h2)
          · simp at h2⟩⟩
      · rw [if_neg h] at hw
        rcases List.mem_cons.mp hw with h2 | h2
        · subst h2
          refine ⟨by simpa using fun h2 => h (by simp [h2]), ?_⟩
          intro c hc
          rw [List.mem_reverse] at hc
          exact ⟨hacc c hc, Or.inr hc⟩
        · have := ih [] (by simp) w h2
          exact ⟨this.1, fun c hc => ⟨(this.2 c hc).1, by
            rcases (this.2 c hc).2 with h3 | h3
            · exact Or.inl (List.mem_cons_of_mem _ h3)
            · simp at h3⟩⟩
    | false =>
      rw [if_neg (by simp [hs])] at hw
      have hacc2 : ∀ c ∈ d :: acc, isSpaceChar c = false := by
        intro c hc
        rcases List.mem_cons.mp hc with h2 | h2
        · subst h2; exact hs
        · exact hacc c h2
      have := ih (d :: acc) hacc2 w hw
      refine ⟨this.1, fun c hc => ⟨(this.2 c hc).1, ?_⟩⟩
      rcases (this.2 c hc).2 with h2 | h2
      · exact Or.inl (List.mem_cons_of_mem _ h2)
      · rcases List.mem_cons.mp h2 with h3 | h3
        · exact Or.inl (h3 ▸ List.mem_cons_self _ _)
        · exact Or.inr h3

theorem pySplit_mem {l w : List Char} (hw : w ∈ pySplit l) :
    w ≠ [] ∧ ∀ c ∈ w, isSpaceChar c = false ∧ c ∈ l := by
  have := wordsAux_mem l [] (by simp) w hw
  exact ⟨this.1, fun c hc => ⟨(this.2 c hc).1, by
    rcases (this.2 c hc).2 with h | h
    · exact h
    · simp at h⟩⟩

theorem joinSp_nil : joinSp [] = [] := rfl

theorem joinSp_singleton (w : List Char) : joinSp [w] = w := rfl

theorem joinSp_cons_cons (w x : List Char) (t : List (List Char)) :
    joinSp (w :: x :: t) = w ++ spaceChar :: joinSp (x :: t) := rfl

theorem joinSp_ne_nil {w : List Char} {ws : List (List Char)} (h : w ≠ []) :
    joinSp (w :: ws) ≠ [] := by
  cases ws with
  | nil => simpa [joinSp_singleton] using h
  | cons x t => simp [joinSp_cons_cons, h]

theorem mem_joinSp {ws : List (List Char)} {c : Char} (h : c ∈ joinSp ws) :
    c = spaceChar ∨ ∃ w ∈ ws, c ∈ w := by
  induction ws with
  | nil => simp [joinSp_nil] at h
  | cons w ws' ih =>
    cases ws' with
    | nil =>
      rw [joinSp_singleton] at h
      exact Or.inr ⟨w, by simp, h⟩
    | cons x t =>
      rw [joinSp_cons_cons] at h
      rcases List.mem_append.mp h with h2 | h2
      · exact Or.inr ⟨w, by simp, h2⟩
      · rcases List.mem_cons.mp h2 with h3 | h3
        · exact Or.inl h3
        · rcases ih h3 with h4 | ⟨w', hw', hc'⟩
          · exact Or.inl h4
          · exact Or.inr ⟨w', List.mem_cons_of_mem _ hw', hc'⟩

theorem joinSp_head {ws : List (List Char)} (hne : ∀ w ∈ ws, w ≠ []) {c : Char}
    (h : (joinSp ws).head? = some c) : ∃ w ∈ ws, c ∈ w := by
  induction ws with
  | nil => simp [joinSp_nil] at h
  | cons w ws' ih =>
    have hw : w ≠ [] := hne w (by simp)
    cases ws' with
    | nil =>
      rw [joinSp_singleton] at h
      exact ⟨w, by simp, List.mem_of_mem_head? h⟩
    | cons x t =>
      rw [joinSp_cons_cons] at h
      cases w with
      | nil => exact absurd rfl hw
      | cons a w' =>
        simp at h
        exact ⟨a :: w', by simp, by simp [← h]⟩

theorem joinSp_getLast {ws : List (List Char)} (hne : ∀ w ∈ ws, w ≠ []) {c : Char}
    (h : (joinSp ws).getLast? = some c) : ∃ w ∈ ws, c ∈ w := by
  induction ws with
  | nil => simp [joinSp_nil] at h
  | cons w ws' ih =>
    cases ws' with
    | nil =>
      rw [joinSp_singleton] at h
      exact ⟨w, by simp, List.mem_of_getLast?_eq_some h⟩
    | cons x t =>
      rw [joinSp_cons_cons, List.getLast?_append] at h
      have hx : joinSp (x :: t) ≠ [] := joinSp_ne_nil (hne x (by simp))
      obtain ⟨b, hb⟩ : ∃ b, (joinSp (x :: t)).getLast? = some b := by
        cases h2 : (joinSp (x :: t)).getLast? with
        | none => exact absurd (List.getLast?_eq_none_iff.mp h2) hx
        | some b => exact ⟨b, rfl⟩
      have hsc : (spaceChar :: joinSp (x :: t)).getLast? = some b := by
        cases hm : joinSp (x :: t) with
        | nil => exact absurd hm hx
        | cons y ys => rw [hm] at hb; simpa using hb
      rw [hsc] at h
      simp at h
      subst h
      rcases ih (fun w' hw' => hne w' (List.mem_cons_of_mem _ hw')) hb with ⟨w', hw', hc'⟩
      exact ⟨w', List.mem_cons_of_mem _ hw', hc'⟩

theorem filter_joinSp {ws : List (List Char)}
    (h : ∀ w ∈ ws, ∀ c ∈ w, isSpaceChar c = false) :
    (joinSp ws).filter (fun c => !(isSpaceChar c)) = ws.flatten := by
  induction ws with
  | nil => simp [joinSp_nil]
  | cons w ws' ih =>
    have hw : ∀ c ∈ w, isSpaceChar c = false := h w (by simp)
    have hwfilt : w.filter (fun c => !(isSpaceChar c)) = w :=
      List.filter_eq_self.mpr (fun c hc => by simp [hw c hc])
    cases ws' with
    | nil => simpa [joinSp_singleton] using hwfilt
    | cons x t =>
      rw [joinSp_cons_cons, List.filter_append, hwfilt]
      rw [List.flatten_cons]
      rw [List.filter_cons]
      simp only [space_isSpace, Bool.not_true, cond_false]
      rw [ih (fun w' hw' c hc => h w' (List.mem_cons_of_mem _ hw') c hc)]
      simp

theorem wordsAux_append_word (w : List Char) (l acc : List Char)
    (hw : ∀ c ∈ w, isSpaceChar c = false) :
    wordsAux (w ++ l) acc = wordsAux l (w.reverse ++ acc) := by
  induction w generalizing acc with
  | nil => simp
  | cons a w' ih =>
    have ha : isSpaceChar a = false := hw a (by simp)
    rw [List.cons_append, wordsAux, if_neg (by simp [ha])]
    rw [ih (a :: acc) (fun c hc => hw c (List.mem_cons_of_mem _ hc))]
    simp

theorem pySplit_joinSp {ws : List (List Char)}
    (h : ∀ w ∈ ws, w ≠ [] ∧ ∀ c ∈ w, isSpaceChar c = false) :
    pySplit (joinSp ws) = ws := by
  induction ws with
  | nil => rfl
  | cons w ws' ih =>
    have hw := h w (by simp)
    cases ws' with
    | nil =>
      rw [joinSp_singleton]
      show wordsAux w [] = [w]
      have := wordsAux_append_word w [] [] hw.2
      rw [List.append_nil] at this
      rw [this, wordsAux]
      rw [if_neg (by simpa using hw.1)]
      simp
    | cons x t =>
      rw [joinSp_cons_cons]
      show wordsAux (w ++ spaceChar :: joinSp (x :: t)) [] = w :: x :: t
      rw [wordsAux_append_word w _ [] hw.2, List.append_nil, wordsAux,
        if_pos (by simp [space_isSpace])]
      rw [if_neg (by simpa using hw.1)]
      rw [List.reverse_reverse]
      have := ih (fun w' hw' => h w' (List.mem_cons_of_mem _ hw'))
      rw [show wordsAux (joinSp (x :: t)) [] = pySplit (joinSp (x :: t)) from rfl, this]

/-! ### Canonical form of normalized titles -/

/-- A word as produced by `normalize_title`: nonempty, made of word
characters, and fixed by lower-casing. -/
def goodWord (w : List Char) : Prop :=
  w ≠ [] ∧ ∀ c ∈ w, isWordChar c = true ∧ Char.toLower c = c

theorem goodWords_pySplit (l : List Char) :
    ∀ w ∈ pySplit (stripNonWord (l.map Char.toLower)), goodWord w := by
  intro w hw
  obtain ⟨hne, hchars⟩ := pySplit_mem hw
  refine ⟨hne, fun c hc => ?_⟩
  obtain ⟨hcs, hcm⟩ := hchars c hc
  rw [stripNonWord, List.mem_filter] at hcm
  obtain ⟨hml, hkeep⟩ := hcm
  have hword : isWordChar c = true := by
    rcases Bool.or_eq_true _ _ |>.mp hkeep with h | h
    · exact h
    · rw [h] at hcs; exact absurd hcs (by simp)
  obtain ⟨a, _, ha⟩ := List.mem_map.mp hml
  have hfix : Char.toLower c = c := by
    rw [← ha, toLower_idem]
  exact ⟨hword, hfix⟩

theorem goodWord_nonspace {w : List Char} (h : goodWord w) :
    ∀ c ∈ w, isSpaceChar c = false :=
  fun c hc => word_not_space (h.2 c hc).1

theorem map_toLower_joinSp {ws : List (List Char)} (h : ∀ w ∈ ws, goodWord w) :
    (joinSp ws).map Char.toLower = joinSp ws := by
  have : ∀ c ∈ joinSp ws, Char.toLower c = c := by
    intro c hc
    rcases mem_joinSp hc with h2 | ⟨w, hw, hcw⟩
    · rw [h2]; exact toLower_space
    · exact ((h w hw).2 c hcw).2
  rw [List.map_congr_left this]
  simp

theorem stripNonWord_joinSp {ws : List (List Char)} (h : ∀ w ∈ ws, goodWord w) :
    stripNonWord (joinSp ws) = joinSp ws := by
  apply List.filter_eq_self.mpr
  intro c hc
  rcases mem_joinSp hc with h2 | ⟨w, hw, hcw⟩
  · rw [h2]; simp [space_isSpace]
  · simp [((h w hw).2 c hcw).1]

theorem normalizeChars_joinSp {ws : List (List Char)} (h : ∀ w ∈ ws, goodWord w) :
    normalizeChars (joinSp ws) = joinSp ws := by
  rw [normalizeChars, map_toLower_joinSp h, stripNonWord_joinSp h,
    pySplit_joinSp (fun w hw => ⟨(h w hw).1, goodWord_nonspace (h w hw)⟩)]

theorem normalizeChars_eq_joinSp (l : List Char) :
    normalizeChars l = joinSp (pySplit (stripNonWord (l.map Char.toLower))) := rfl

theorem normalizeChars_idem (l : List Char) :
    normalizeChars (normalizeChars l) = normalizeChars l := by
  rw [normalizeChars_eq_joinSp l]
  exact normalizeChars_joinSp (goodWords_pySplit l)

theorem chain_nonspace {w : List Char} (hw : ∀ c ∈ w, isSpaceChar c = false) :
    List.Chain' (fun a b => isSpaceChar a = false ∨ isSpaceChar b = false) w := by
  induction w with
  | nil => exact List.chain'_nil
  | cons a t ih =>
    rw [List.chain'_cons']
    exact ⟨fun y _ => Or.inl (hw a (by simp)),
      ih (fun c hc => hw c (List.mem_cons_of_mem _ hc))⟩

theorem chain_joinSp {ws : List (List Char)} (h : ∀ w ∈ ws, goodWord w) :
    List.Chain' (fun a b => isSpaceChar a = false ∨ isSpaceChar b = false) (joinSp ws) := by
  induction ws with
  | nil => exact List.chain'_nil
  | cons w ws' ih =>
    have hw := h w (by simp)
    cases ws' with
    | nil =>
      rw [joinSp_singleton]
      exact chain_nonspace (goodWord_nonspace hw)
    | cons x t =>
      rw [joinSp_cons_cons]
      rw [List.chain'_append]
      refine ⟨chain_nonspace (goodWord_nonspace hw), ?_, ?_⟩
      · rw [List.chain'_cons']
        refine ⟨fun y hy => ?_, ih (fun w' hw' => h w' (List.mem_cons_of_mem _ hw'))⟩
        obtain ⟨w', hw', hyw'⟩ := joinSp_head
          (fun w' hw' => (h w' (List.mem_cons_of_mem _ hw')).1) hy
        exact Or.inr (goodWord_nonspace (h w' (List.mem_cons_of_mem _ hw')) y hyw')
      · intro a ha y hy
        simp at hy
        exact Or.inl (goodWord_nonspace hw a (List.mem_of_getLast?_eq_some ha))

theorem nonspace_and_keep (c : Char) :
    ((!(isSpaceChar c)) && (isWordChar c || isSpaceChar c)) = isWordChar c := by
  cases hs : isSpaceChar c
  · simp
  · simp
    cases hw : isWordChar c
    · rfl
    · exact absurd (word_not_space hw) (by simp [hs])

theorem flatten_pySplit (l : List Char) :
    (pySplit l).flatten = l.filter (fun c => !(isSpaceChar c)) := by
  have := wordsAux_join l []
  simpa using this

/-! ### The split-join idiom equals collapse-and-trim

`' '.join(x.split())` replaces every maximal whitespace run by a single
space and removes leading/trailing whitespace.  The lemmas below prove the
equivalence with the direct collapse-then-trim formulation, so that
`normalize_title` can be compared with the spec algorithm stated in those
words. -/

/-- Remove trailing whitespace. -/
def trimEnd (l : List Char) : List Char := (l.reverse.dropWhile isSpaceChar).reverse

theorem trimWs_eq_trimEnd (l : List Char) :
    trimWs l = trimEnd (l.dropWhile isSpaceChar) := rfl

theorem trimEnd_nil : trimEnd [] = [] := rfl

theorem trimEnd_eq_nil_iff {l : List Char} :
    trimEnd l = [] ↔ ∀ c ∈ l, isSpaceChar c = true := by
  rw [trimEnd]
  constructor
  · intro h c hc
    have h2 : l.reverse.dropWhile isSpaceChar = [] := by
      cases h3 : l.reverse.dropWhile isSpaceChar with
      | nil => rfl
      | cons a t => rw [h3] at h; simp at h
    exact List.dropWhile_eq_nil_iff.mp h2 c (List.mem_reverse.mpr hc)
  · intro h
    rw [List.dropWhile_eq_nil_iff.mpr (fun x hx => h x (List.mem_reverse.mp hx))]
    rfl

theorem trimEnd_ne_nil_of_nonspace {l : List Char}
    (h : ∃ c ∈ l, isSpaceChar c = false) : trimEnd l ≠ [] := by
  intro hnil
  obtain ⟨c, hc, hns⟩ := h
  rw [trimEnd_eq_nil_iff.mp hnil c hc] at hns
  simp at hns

theorem trimEnd_cons_nonspace {c : Char} (hc : isSpaceChar c = false) (l : List Char) :
    trimEnd (c :: l) = c :: trimEnd l := by
  rw [trimEnd, trimEnd, List.reverse_cons, List.dropWhile_append]
  by_cases h : (l.reverse.dropWhile isSpaceChar).isEmpty
  · rw [if_pos h, List.isEmpty_iff.mp h]
    rw [List.dropWhile_cons_of_neg (by simp [hc])]
    rfl
  · rw [if_neg h, List.reverse_append]
    rfl

theorem trimEnd_cons_space_of_ne {l : List Char} (h : trimEnd l ≠ []) :
    trimEnd (spaceChar :: l) = spaceChar :: trimEnd l := by
  have h2 : (l.reverse.dropWhile isSpaceChar).isEmpty = false := by
    cases h3 : l.reverse.dropWhile isSpaceChar with
    | nil => exact absurd (by rw [trimEnd, h3]; rfl) h
    | cons a t => rfl
  rw [trimEnd, trimEnd, List.reverse_cons, List.dropWhile_append, if_neg (by simp [h2])]
  rw [List.reverse_append]
  rfl

theorem trimEnd_space_singleton : trimEnd [spaceChar] = [] := by decide

theorem collapseWsAux_space_true {c : Char} (hc : isSpaceChar c = true) (l : List Char) :
    collapseWsAux (c :: l) true = collapseWsAux l true := by
  rw [collapseWsAux]
  simp [hc]

theorem collapseWsAux_space_false {c : Char} (hc : isSpaceChar c = true) (l : List Char) :
    collapseWsAux (c :: l) false = spaceChar :: collapseWsAux l true := by
  rw [collapseWsAux]
  simp [hc]

theorem collapseWsAux_nonspace {c : Char} (hc : isSpaceChar c = false) (l : List Char)
    (b : Bool) : collapseWsAux (c :: l) b = c :: collapseWsAux l false := by
  rw [collapseWsAux]
  simp [hc]

theorem collapseWsAux_true_head_nonspace (l : List Char) :
    (collapseWsAux l true).dropWhile isSpaceChar = collapseWsAux l true := by
  induction l with
  | nil => rfl
  | cons c l' ih =>
    cases hc : isSpaceChar c with
    | true => rw [collapseWsAux_space_true hc]; exact ih
    | false =>
      rw [collapseWsAux_nonspace hc, List.dropWhile_cons_of_neg (by simp [hc])]

theorem dropWhile_collapseWs (l : List Char) :
    (collapseWsAux l false).dropWhile isSpaceChar = collapseWsAux l true := by
  cases l with
  | nil => rfl
  | cons c l' =>
    cases hc : isSpaceChar c with
    | true =>
      rw [collapseWsAux_space_false hc, collapseWsAux_space_true hc,
        List.dropWhile_cons_of_pos (by simp [space_isSpace])]
      exact collapseWsAux_true_head_nonspace l'
    | false =>
      rw [collapseWsAux_nonspace hc l' false, collapseWsAux_nonspace hc l' true,
        List.dropWhile_cons_of_neg (by simp [hc])]

theorem collapseWsAux_true_of_allspace {l : List Char}
    (h : ∀ c ∈ l, isSpaceChar c = true) : collapseWsAux l true = [] := by
  induction l with
  | nil => rfl
  | cons c l' ih =>
    rw [collapseWsAux_space_true (h c (by simp))]
    exact ih (fun d hd => h d (List.mem_cons_of_mem _ hd))

theorem wordsAux_ne_nil_of_acc (l : List Char) :
    ∀ acc : List Char, acc ≠ [] → wordsAux l acc ≠ [] := by
  induction l with
  | nil =>
    intro acc hacc
    rw [wordsAux, if_neg (by simpa using hacc)]
    simp
  | cons c l' ih =>
    intro acc hacc
    rw [wordsAux]
    by_cases hc : isSpaceChar c
    · rw [if_pos hc, if_neg (by simpa using hacc)]
      simp
    · rw [if_neg hc]
      exact ih (c :: acc) (by simp)

theorem allspace_of_wordsAux_nil {l : List Char} (h : wordsAux l [] = []) :
    ∀ c ∈ l, isSpaceChar c = true := by
  induction l with
  | nil => simp
  | cons c l' ih =>
    rw [wordsAux] at h
    by_cases hc : isSpaceChar c
    · rw [if_pos hc, if_pos (by simp)] at h
      intro d hd
      rcases List.mem_cons.mp hd with h2 | h2
      · rw [h2]; simpa using hc
      · exact ih h d h2
    · rw [if_neg hc] at h
      exact absurd h (wordsAux_ne_nil_of_acc l' [c] (by simp))

theorem wordsAux_nil_of_allspace {l : List Char}
    (h : ∀ c ∈ l, isSpaceChar c = true) : wordsAux l [] = [] := by
  induction l with
  | nil => rfl
  | cons c l' ih =>
    rw [wordsAux, if_pos (by simpa using h c (by simp)), if_pos (by simp)]
    exact ih (fun d hd => h d (List.mem_cons_of_mem _ hd))

theorem exists_nonspace_of_wordsAux_ne {l : List Char} (h : wordsAux l [] ≠ []) :
    ∃ c ∈ l, isSpaceChar c = false := by
  by_contra hno
  push_neg at hno
  exact h (wordsAux_nil_of_allspace (fun c hc => by simpa using hno c hc))

theorem mem_nonspace_collapseWsAux {l : List Char} {c : Char}
    (hc : c ∈ l) (hns : isSpaceChar c = false) :
    ∀ b, ∃ d ∈ collapseWsAux l b, isSpaceChar d = false := by
  induction l with
  | nil => simp at hc
  | cons a l' ih =>
    intro b
    cases ha : isSpaceChar a with
    | false =>
      rw [collapseWsAux_nonspace ha]
      exact ⟨a, by simp, ha⟩
    | true =>
      have hcl' : c ∈ l' := by
        rcases List.mem_cons.mp hc with h | h
        · subst h; rw [ha] at hns; simp at hns
        · exact h
      obtain ⟨d, hd, hdns⟩ := ih hcl' true
      cases b with
      | false =>
        rw [collapseWsAux_space_false ha]
        exact ⟨d, List.mem_cons_of_mem _ hd, hdns⟩
      | true =>
        rw [collapseWsAux_space_true ha]
        exact ⟨d, hd, hdns⟩

theorem collapse_words_aux : ∀ (k : Nat) (m : List Char), m.length ≤ k →
    (joinSp (wordsAux m []) = trimEnd (collapseWsAux m true)) ∧
    (∀ acc : List Char, acc ≠ [] → (∀ c ∈ acc, isSpaceChar c = false) →
      joinSp (wordsAux m acc) = acc.reverse ++ trimEnd (collapseWsAux m false)) := by
  intro k
  induction k with
  | zero =>
    intro m hm
    have hm0 : m = [] := List.length_eq_zero.mp (Nat.le_zero.mp hm)
    subst hm0
    refine ⟨rfl, ?_⟩
    intro acc hacc hns
    rw [wordsAux, if_neg (by simpa using hacc), joinSp_singleton]
    show acc.reverse = acc.reverse ++ trimEnd (collapseWsAux [] false)
    rw [show collapseWsAux [] false = [] from rfl, trimEnd_nil, List.append_nil]
  | succ n ih =>
    intro m hm
    cases m with
    | nil =>
      refine ⟨rfl, ?_⟩
      intro acc hacc hns
      rw [wordsAux, if_neg (by simpa using hacc), joinSp_singleton]
      show acc.reverse = acc.reverse ++ trimEnd (collapseWsAux [] false)
      rw [show collapseWsAux [] false = [] from rfl, trimEnd_nil, List.append_nil]
    | cons c m' =>
      have hm' : m'.length ≤ n := by simpa using hm
      have IH := ih m' hm'
      cases hc : isSpaceChar c with
      | true =>
        constructor
        · rw [wordsAux, if_pos (by simp [hc]), if_pos (by simp),
            collapseWsAux_space_true hc]
          exact IH.1
        · intro acc hacc hns
          rw [wordsAux, if_pos (by simp [hc]), if_neg (by simpa using hacc),
            collapseWsAux_space_false hc]
          cases hw : wordsAux m' [] with
          | nil =>
            have hall : ∀ d ∈ m', isSpaceChar d = true := allspace_of_wordsAux_nil hw
            rw [joinSp_singleton, collapseWsAux_true_of_allspace hall,
              trimEnd_space_singleton, List.append_nil]
          | cons w ws =>
            rw [joinSp_cons_cons]
            have hne : trimEnd (collapseWsAux m' true) ≠ [] := by
              apply trimEnd_ne_nil_of_nonspace
              obtain ⟨d, hd, hdns⟩ :=
                exists_nonspace_of_wordsAux_ne (by rw [hw]; simp)
              exact mem_nonspace_collapseWsAux hd hdns true
            rw [trimEnd_cons_space_of_ne hne, ← IH.1, hw]
      | false =>
        constructor
        · rw [wordsAux, if_neg (by simp [hc]), collapseWsAux_nonspace hc,
            trimEnd_cons_nonspace hc]
          have := IH.2 [c] (by simp) (by
            intro d hd
            rw [List.mem_singleton] at hd
            rw [hd]
            exact hc)
          simpa using this
        · intro acc hacc hns
          rw [wordsAux, if_neg (by simp [hc]), collapseWsAux_nonspace hc,
            trimEnd_cons_nonspace hc]
          have hns2 : ∀ d ∈ c :: acc, isSpaceChar d = false := by
            intro d hd
            rcases List.mem_cons.mp hd with h | h
            · rw [h]; exact hc
            · exact hns d h
          rw [IH.2 (c :: acc) (by simp) hns2, List.reverse_cons, List.append_assoc,
            List.singleton_append]

theorem joinSp_pySplit_eq (m : List Char) :
    joinSp (pySplit m) = trimWs (collapseWs m) := by
  rw [collapseWs, trimWs_eq_trimEnd, dropWhile_collapseWs]
  exact (collapse_words_aux m.length m (Nat.le_refl _)).1

/-! ### Claim C9 -/

/-- C9: title normalization is idempotent: for every string `x`,
`normalize_title (normalize_title x) = normalize_title x`. -/
theorem normalize_title_idempotent (s : String) :
    normalize_title (normalize_title s) = normalize_title s := by
  by_cases h : s = ""
  · subst h; rfl
  · have hs : normalize_title s = String.mk (normalizeChars s.data) := by
      rw [normalize_title, if_neg h]
    rw [hs]
    by_cases h2 : String.mk (normalizeChars s.data) = ""
    · rw [h2]; rfl
    · rw [normalize_title, if_neg h2]
      show String.mk (normalizeChars (normalizeChars s.data)) = _
      rw [normalizeChars_idem]

/-! ### Claim C4

The claim says `normalize_title` "strips all characters that are not
alphanumeric or whitespace".  The source uses `re.sub(r'[^\w\s]', '', ...)`,
and `\w` matches the underscore as well as alphanumerics, so underscores are
KEPT by the code but stripped by the claim's algorithm.  `"a_b"` separates
the two. -/

/-- C4 is false as stated: on the input `"a_b"` the code keeps the
underscore, while the claim's algorithm (strip everything that is not
alphanumeric or whitespace) would delete it. -/
theorem normalize_title_claim_counterexample :
    normalize_title ("a_b") = ("a_b") ∧
    normalizeTitleSpec ("a_b") = ("ab") ∧
    normalize_title ("a_b") ≠ normalizeTitleSpec ("a_b") := by decide

/-- Modelled from the spec's amended wording: lower-case; strip all
characters that are not word characters (alphanumeric or underscore) or
whitespace; collapse any run of whitespace to a single space; trim.  This
is the direct collapse-and-trim implementation of those words, independent
of the source's `' '.join(x.split())` idiom. -/
def normalizeTitleAmendedSpec (s : String) : String :=
  String.mk (trimWs (collapseWs
    ((s.data.map Char.toLower).filter (fun c => isWordChar c || isSpaceChar c))))

example : normalizeTitleAmendedSpec ("a  b!") = ("a b") := by decide
example : normalize_title ("a  b!") = ("a b") := by decide

/-- C4 (amended): `normalize_title` is deterministic, pure and total; empty
or absent input yields the empty string; and on every input it computes
exactly the amended algorithm — lower-case, strip all characters that are
not word characters (alphanumeric or underscore — not merely alphanumeric)
or whitespace, collapse any run of whitespace to a single space, and
trim — as witnessed by equality with the direct implementation of that
algorithm. -/
theorem normalize_title_amended (s : String) :
    normalize_title ("") = ("") ∧
    normalize_title s = normalizeTitleAmendedSpec s := by
  refine ⟨rfl, ?_⟩
  by_cases h : s = ""
  · subst h
    rfl
  · rw [normalize_title, if_neg h, normalizeTitleAmendedSpec]
    show String.mk (joinSp (pySplit (stripNonWord (s.data.map Char.toLower)))) = _
    rw [show stripNonWord (s.data.map Char.toLower)
        = (s.data.map Char.toLower).filter (fun c => isWordChar c || isSpaceChar c)
      from rfl]
    rw [joinSp_pySplit_eq]

/-- Witness for C4 at the concrete input `"a_b  c"`. -/
theorem normalize_title_amended_witness :
    normalize_title ("") = ("") ∧
    normalize_title ("a_b  c") = normalizeTitleAmendedSpec ("a_b  c") :=
  normalize_title_amended ("a_b  c")

/-! ### Overlap engine (`process_libraries`, lines 294-314)

Records are the rows of the per-library record DataFrames.  Every appended
record dict carries `title` and `normalized_title` together (the `if 'title'
in rec_data` guard), so the `normalized_title` column exists whenever the
record list is nonempty and never contains NaN.  A pandas DataFrame built
from an EMPTY list of dicts has no columns at all, so selecting
`df['normalized_title']` raises `KeyError`. -/

structure RecordRow where
  title : String
  normalized_title : String
deriving DecidableEq, Repr

structure OverlapCounts where
  portal_only : Nat
  search_only : Nat
  overlap : Nat
  common_titles : Finset String
deriving DecidableEq

/-- Column selection `df['normalized_title']` (with its `.dropna()`, which
drops nothing because the column is NaN-free): errors on the empty
DataFrame, which has no columns. -/
def seriesNormalizedTitle (records : List RecordRow) : Except String (List String) :=
  if records.isEmpty then Except.error ("KeyError: normalized_title")
  else Except.ok (records.map (fun r => r.normalized_title))

/-- The set of normalized titles of one library's records. -/
def titleSet (records : List RecordRow) : Finset String :=
  (records.map (fun r => r.normalized_title)).toFinset

/-- Embedding of the overlap analysis of `process_libraries` (lines
299-307): per-library sets of normalized titles, their intersection, and
the `len(portal_titles) - len(common_titles)` style counts. -/
def computeOverlap (portal search : List RecordRow) : Except String OverlapCounts := do
  let pt ← seriesNormalizedTitle portal
  let st ← seriesNormalizedTitle search
  let portalTitles := pt.toFinset
  let searchTitles := st.toFinset
  let commonTitles := portalTitles ∩ searchTitles
  Except.ok ⟨portalTitles.card - commonTitles.card,
    searchTitles.card - commonTitles.card, commonTitles.card, commonTitles⟩

/-! ### Claim C2 -/

/-- C2 is false in its empty-input part: with an empty record list for the
Portal library (and a nonempty Search list), the overlap computation raises
`KeyError` instead of returning `overlap = 0`, because the DataFrame built
from an empty record list has no `normalized_title` column. -/
theorem computeOverlap_empty_counterexample :
    computeOverlap [] [⟨"Salmon Habitat", "salmon habitat"⟩]
      = Except.error ("KeyError: normalized_title") := by rfl

/-- C2 (amended): whenever both record lists are nonempty, the overlap
computation succeeds with `commonTitles` the intersection of the two
per-library normalized-title sets, `portalOnly = |portalSet \ searchSet|`
(which equals `|portalSet| - |commonTitles|`), symmetrically for search,
and `overlap = |commonTitles|`.  When either list is empty it raises
`KeyError` instead of returning `overlap = 0`. -/
theorem computeOverlap_amended (portal search : List RecordRow)
    (hp : portal ≠ []) (hs : search ≠ []) :
    computeOverlap portal search = Except.ok
      ⟨(titleSet portal \ titleSet search).card,
       (titleSet search \ titleSet portal).card,
       (titleSet portal ∩ titleSet search).card,
       titleSet portal ∩ titleSet search⟩ := by
  rw [computeOverlap, seriesNormalizedTitle, seriesNormalizedTitle,
    if_neg (by simpa using hp), if_neg (by simpa using hs)]
  show Except.ok _ = Except.ok _
  have hP : (portal.map (fun r => r.normalized_title)).toFinset = titleSet portal := rfl
  have hS : (search.map (fun r => r.normalized_title)).toFinset = titleSet search := rfl
  have hcard : ∀ s t : Finset String, s.card - (s ∩ t).card = (s \ t).card := by
    intro s t
    have := Finset.card_inter_add_card_sdiff s t
    omega
  rw [hP, hS, hcard (titleSet portal) (titleSet search)]
  have hcard2 : (titleSet search).card - (titleSet portal ∩ titleSet search).card
      = (titleSet search \ titleSet portal).card := by
    rw [Finset.inter_comm]
    exact hcard (titleSet search) (titleSet portal)
  rw [hcard2]

/-- Witness for C2 at concrete nonempty inputs. -/
theorem computeOverlap_amended_witness :
    (([⟨"Salmon Habitat", "salmon habitat"⟩] : List RecordRow) ≠ [] ∧
      ([⟨"Forest Fire Risk", "forest fire risk"⟩] : List RecordRow) ≠ []) ∧
    computeOverlap [⟨"Salmon Habitat", "salmon habitat"⟩]
        [⟨"Forest Fire Risk", "forest fire risk"⟩] = Except.ok
      ⟨(titleSet [⟨"Salmon Habitat", "salmon habitat"⟩]
          \ titleSet [⟨"Forest Fire Risk", "forest fire risk"⟩]).card,
       (titleSet [⟨"Forest Fire Risk", "forest fire risk"⟩]
          \ titleSet [⟨"Salmon Habitat", "salmon habitat"⟩]).card,
       (titleSet [⟨"Salmon Habitat", "salmon habitat"⟩]
          ∩ titleSet [⟨"Forest Fire Risk", "forest fire risk"⟩]).card,
       titleSet [⟨"Salmon Habitat", "salmon habitat"⟩]
          ∩ titleSet [⟨"Forest Fire Risk", "forest fire risk"⟩]⟩ :=
  ⟨⟨by decide, by decide⟩, computeOverlap_amended _ _ (by decide) (by decide)⟩

/-! ### Collection statistics (`process_libraries`, lines 377-426)

`collection_analysis_df` rows carry one entry per (normalized title,
library, collection) pair, with the `is_overlap` flag.  The statistics
group these rows by `['library', 'collection_path', 'collection_title',
'collection_depth']`; `total_items` is the group size, `overlap_items`
counts the `is_overlap` rows of the group (`fillna(0)` after the left
merge), and `overlap_percentage = (overlap/total*100).round(2)`.
Python/numpy `round` is round-half-to-even, modelled on rationals. -/

structure AnalysisRow where
  normalized_title : String
  library : String
  collection_id : String
  collection_title : String
  collection_path : String
  collection_depth : Nat
  is_overlap : Bool
deriving DecidableEq, Repr

structure CollectionStat where
  library : String
  collection_path : String
  collection_title : String
  collection_depth : Nat
  total_items : Nat
  overlap_items : Nat
  overlap_percentage : ℚ
deriving DecidableEq, Repr

/-- Round-half-to-even to an integer (Python `round` semantics). -/
def roundHalfEven (q : ℚ) : ℤ :=
  let f := ⌊q⌋
  let r := q - (f : ℚ)
  if r < (1 : ℚ)/2 then f
  else if (1 : ℚ)/2 < r then f + 1
  else if f % 2 = 0 then f else f + 1

/-- Python `round(x, 2)`. -/
def round2 (q : ℚ) : ℚ := ((roundHalfEven (q * 100) : ℤ) : ℚ) / 100

/-- The pandas group key `['library', 'collection_path', 'collection_title',
'collection_depth']`. -/
def rowKey (r : AnalysisRow) : String × String × String × Nat :=
  (r.library, r.collection_path, r.collection_title, r.collection_depth)

/-- Embedding of the statistics aggregation (lines 414-423): one stat per
occurring group key, with the group size, overlap count and percentage. -/
def collection_stats (rows : List AnalysisRow) : List CollectionStat :=
  ((rows.map rowKey).dedup).map (fun k =>
    let total := rows.countP (fun r => decide (rowKey r = k))
    let ov := rows.countP (fun r => decide (rowKey r = k) && r.is_overlap)
    { library := k.1, collection_path := k.2.1, collection_title := k.2.2.1,
      collection_depth := k.2.2.2, total_items := total, overlap_items := ov,
      overlap_percentage := round2 (((ov : ℚ) / (total : ℚ)) * 100) })

/-! ### Claim C3 -/

/-- C3: every produced `CollectionStat` satisfies
`0 < totalItems` (so the division `overlap/total` never divides by zero:
every group key comes from at least one row), `overlapItems <= totalItems`,
and `overlapPercentage = round(overlapItems/totalItems*100, 2)`. -/
theorem collection_stats_invariants (rows : List AnalysisRow) (st : CollectionStat)
    (hst : st ∈ collection_stats rows) :
    0 < st.total_items ∧ st.overlap_items ≤ st.total_items ∧
    st.overlap_percentage
      = round2 (((st.overlap_items : ℚ) / (st.total_items : ℚ)) * 100) := by
  obtain ⟨k, hk, hmk⟩ := List.mem_map.mp hst
  rw [List.mem_dedup] at hk
  obtain ⟨r, hr, hrk⟩ := List.mem_map.mp hk
  subst hmk
  refine ⟨?_, ?_, rfl⟩
  · rw [List.countP_pos_iff]
    exact ⟨r, hr, by simp [hrk]⟩
  · exact List.countP_mono_left (fun a _ h => (Bool.and_elim_left h))

/-- A one-row analysis table for the C3 witness. -/
def c3row : AnalysisRow := ⟨"salmon habitat", "Portal", "C1", "Fish", "Fish", 0, true⟩

/-- The stat the aggregation produces on `[c3row]`. -/
def c3stat : CollectionStat := ⟨"Portal", "Fish", "Fish", 0, 1, 1, 100⟩

theorem collection_stats_on_c3row : collection_stats [c3row] = [c3stat] := by
  rw [collection_stats]
  simp only [List.map_cons, List.map_nil, List.countP_cons, List.countP_nil]
  norm_num [rowKey, c3row, c3stat, round2, roundHalfEven]

/-- Witness for C3: a one-row analysis table yields the stat
`total = 1, overlap = 1, percentage = 100`, and the invariants hold on it. -/
theorem collection_stats_invariants_witness :
    (c3stat ∈ collection_stats [c3row]) ∧
    (0 < c3stat.total_items ∧ c3stat.overlap_items ≤ c3stat.total_items ∧
      c3stat.overlap_percentage
        = round2 (((c3stat.overlap_items : ℚ) / (c3stat.total_items : ℚ)) * 100)) :=
  have hmem : c3stat ∈ collection_stats [c3row] := by
    rw [collection_stats_on_c3row]; exact List.mem_singleton.mpr rfl
  ⟨hmem, collection_stats_invariants [c3row] c3stat hmem⟩

/-! ### Gap ranking (`identify_collection_gaps`, lines 698-719)

The source filters `total_items >= min_items` and then runs
`sort_values(['overlap_percentage', 'collection_path'])`; a multi-column
pandas `sort_values` is a stable lexicographic sort, modelled by
`List.insertionSort` with the lexicographic relation below. -/

/-- Lexicographic order on (overlap percentage, collection path). -/
def gapRel (a b : CollectionStat) : Prop :=
  a.overlap_percentage < b.overlap_percentage ∨
    (a.overlap_percentage = b.overlap_percentage ∧ a.collection_path ≤ b.collection_path)

instance : DecidableRel gapRel := fun a b => by
  unfold gapRel
  infer_instance

instance : IsTotal CollectionStat gapRel := by
  constructor
  intro a b
  rcases lt_trichotomy a.overlap_percentage b.overlap_percentage with h | h | h
  · exact Or.inl (Or.inl h)
  · rcases le_total a.collection_path b.collection_path with h2 | h2
    · exact Or.inl (Or.inr ⟨h, h2⟩)
    · exact Or.inr (Or.inr ⟨h.symm, h2⟩)
  · exact Or.inr (Or.inl h)

instance : IsTrans CollectionStat gapRel := by
  constructor
  intro a b c hab hbc
  rcases hab with h1 | ⟨h1, h1p⟩
  · rcases hbc with h2 | ⟨h2, _⟩
    · exact Or.inl (h1.trans h2)
    · exact Or.inl (h2 ▸ h1)
  · rcases hbc with h2 | ⟨h2, h2p⟩
    · exact Or.inl (h1 ▸ h2)
    · exact Or.inr ⟨h1.trans h2, h1p.trans h2p⟩

/-- Embedding of `identify_collection_gaps`: filter to the significant
collections, then the stable lexicographic sort. -/
def identify_collection_gaps (stats : List CollectionStat) (min_items : Nat) :
    List CollectionStat :=
  List.insertionSort gapRel (stats.filter (fun st => decide (min_items ≤ st.total_items)))

/-! ### Claim C5 -/

/-- C5: the gap ranking returns exactly the stats with
`totalItems >= minItems` (a permutation of that filtered list), sorted
ascending by overlap percentage with ties broken by collection path, and
re-running it on the same input yields the identical order. -/
theorem identify_collection_gaps_spec (stats : List CollectionStat) (min_items : Nat) :
    (identify_collection_gaps stats min_items).Perm
        (stats.filter (fun st => decide (min_items ≤ st.total_items))) ∧
    List.Sorted gapRel (identify_collection_gaps stats min_items) ∧
    identify_collection_gaps stats min_items = identify_collection_gaps stats min_items :=
  ⟨List.perm_insertionSort gapRel _, List.sorted_insertionSort gapRel _, rfl⟩

/-! ### DOM-nesting hierarchy (`parse_website_hierarchy.py`)

`parse_collection_hierarchy` reads each node's nesting level from
`item.get('aria-level', 2)` — the default for a missing attribute is the
literal 2 — and `extract_full_paths` starts path construction from the
nodes with `collection['level'] == 2` (the hard-coded website root level),
NOT from the minimum observed level.  The collection tree dict is modelled
as a list of nodes in insertion order; the `paths` dict as an association
list with in-place overwrite.  The recursive `build_path` is given
`tree.length` as recursion fuel (the source recursion is unbounded; on the
acyclic child lists the parser produces, its depth is at most the number of
nodes). -/

structure TreeNode where
  id : String
  title : String
  level : Int
  children : List String
deriving DecidableEq, Repr

/-- Embedding of `int(item.get('aria-level', 2))`: the level of a node
whose `aria-level` attribute may be absent. -/
def levelOfItem (ariaLevel : Option Int) : Int := ariaLevel.getD 2

/-- Python dict assignment `paths[k] = v`: overwrite in place, append new
keys at the end. -/
def assocSet (m : List (String × String)) (k v : String) : List (String × String) :=
  match m with
  | [] => [(k, v)]
  | (k1, v1) :: rest => if k1 = k then (k, v) :: rest else (k1, v1) :: assocSet rest k v

/-- Embedding of the recursive `build_path` in `extract_full_paths`. -/
def build_path (tree : List TreeNode) :
    Nat → String → String → List (String × String) → List (String × String)
  | 0, _, _, paths => paths
  | fuel + 1, cid, current_path, paths =>
    match tree.find? (fun n => decide (n.id = cid)) with
    | none => paths
    | some node =>
      let full_path := if current_path = "" then node.title
        else current_path ++ "/" ++ node.title
      let paths1 := assocSet paths cid full_path
      node.children.foldl (fun ps child => build_path tree fuel child full_path ps) paths1

/-- Embedding of `extract_full_paths` (lines 108-111): iterate the
collection tree and start `build_path` from every node whose level is 2. -/
def extract_full_paths (tree : List TreeNode) : List (String × String) :=
  tree.foldl (fun paths n =>
    if n.level = 2 then build_path tree tree.length n.id ("") paths else paths) []

/-- A key is present in the association list. -/
def hasKey (m : List (String × String)) (k : String) : Prop := ∃ v, (k, v) ∈ m

theorem hasKey_assocSet_self (m : List (String × String)) (k v : String) :
    hasKey (assocSet m k v) k := by
  induction m with
  | nil => exact ⟨v, by simp [assocSet]⟩
  | cons e rest ih =>
    rw [assocSet]
    by_cases h : e.1 = k
    · exact ⟨v, by simp [h]⟩
    · obtain ⟨v', hv'⟩ := ih
      exact ⟨v', by simp [h, hv']⟩

theorem hasKey_assocSet_of_hasKey {m : List (String × String)} {k' : String}
    (k v : String) (h : hasKey m k') : hasKey (assocSet m k v) k' := by
  induction m with
  | nil => obtain ⟨v', hv'⟩ := h; simp at hv'
  | cons e rest ih =>
    obtain ⟨k1, v1⟩ := e
    obtain ⟨v', hv'⟩ := h
    rw [assocSet]
    by_cases he : k1 = k
    · rw [if_pos he]
      rcases List.mem_cons.mp hv' with h2 | h2
      · rw [Prod.mk.injEq] at h2
        refine ⟨v, ?_⟩
        rw [h2.1, he]
        exact List.mem_cons_self _ _
      · exact ⟨v', List.mem_cons_of_mem _ h2⟩
    · rw [if_neg he]
      rcases List.mem_cons.mp hv' with h2 | h2
      · exact ⟨v', by rw [h2]; exact List.mem_cons_self _ _⟩
      · obtain ⟨v2, hv2⟩ := ih ⟨v', h2⟩
        exact ⟨v2, List.mem_cons_of_mem _ hv2⟩

theorem foldl_invariant {σ α : Type} {P : σ → Prop} (step : σ → α → σ)
    (hstep : ∀ s a, P s → P (step s a)) :
    ∀ (l : List α) (s : σ), P s → P (l.foldl step s) := by
  intro l
  induction l with
  | nil => intro s hs; exact hs
  | cons a t ih => intro s hs; exact ih (step s a) (hstep s a hs)

theorem hasKey_build_path {k : String} (tree : List TreeNode) :
    ∀ (fuel : Nat) (cid cp : String) (paths : List (String × String)),
      hasKey paths k → hasKey (build_path tree fuel cid cp paths) k := by
  intro fuel
  induction fuel with
  | zero => intro cid cp paths h; exact h
  | succ n ih =>
    intro cid cp paths h
    rw [build_path]
    cases tree.find? (fun n => decide (n.id = cid)) with
    | none => exact h
    | some node =>
      apply foldl_invariant _ (fun ps child hps => ih child _ ps hps)
      exact hasKey_assocSet_of_hasKey _ _ h

theorem hasKey_build_path_self {tree : List TreeNode} {cid : String}
    (hfind : (tree.find? (fun n => decide (n.id = cid))).isSome)
    {fuel : Nat} (hfuel : 0 < fuel) (cp : String) (paths : List (String × String)) :
    hasKey (build_path tree fuel cid cp paths) cid := by
  cases fuel with
  | zero => omega
  | succ m =>
    rw [build_path]
    cases hf : tree.find? (fun n => decide (n.id = cid)) with
    | none => rw [hf] at hfind; simp at hfind
    | some node =>
      apply foldl_invariant _ (fun ps child hps => hasKey_build_path tree m child _ ps hps)
      exact hasKey_assocSet_self _ _ _

/-! ### Claim C6 -/

/-- C6 is false as stated: in the one-node tree whose only node sits at
level 3, the minimum observed level is 3, yet `extract_full_paths` builds
no path at all — the node is not treated as a root, because roots are the
nodes at the hard-coded level 2, not at the minimum observed level. -/
theorem extract_full_paths_counterexample :
    (([⟨"A", "TA", 3, []⟩] : List TreeNode).map (fun n => n.level)).min? = some 3 ∧
    extract_full_paths [⟨"A", "TA", 3, []⟩] = [] := by
  constructor
  · rfl
  · rfl

/-- C6 (amended): in DOM-nesting mode, path construction starts exactly
from the nodes whose level equals the hard-coded website root level 2
(regardless of the minimum observed level): if no node has level 2 the
result is empty, every level-2 node receives a path, and a node with no
`aria-level` attribute defaults to level 2. -/
theorem extract_full_paths_amended (tree : List TreeNode) :
    ((∀ n ∈ tree, n.level ≠ 2) → extract_full_paths tree = []) ∧
    (∀ n ∈ tree, n.level = 2 → hasKey (extract_full_paths tree) n.id) ∧
    levelOfItem none = 2 := by
  refine ⟨?_, ?_, rfl⟩
  · intro h
    rw [extract_full_paths]
    have : ∀ (l : List TreeNode), (∀ n ∈ l, n.level ≠ 2) →
        ∀ ps, l.foldl (fun paths n =>
          if n.level = 2 then build_path tree tree.length n.id ("") paths else paths) ps = ps := by
      intro l
      induction l with
      | nil => intro _ ps; rfl
      | cons a t ih =>
        intro hl ps
        rw [List.foldl_cons, if_neg (hl a (by simp))]
        exact ih (fun n hn => hl n (List.mem_cons_of_mem _ hn)) ps
    exact this tree h []
  · intro n hn hlvl
    rw [extract_full_paths]
    have hfind : (tree.find? (fun m => decide (m.id = n.id))).isSome := by
      rw [List.find?_isSome]
      exact ⟨n, hn, by simp⟩
    have hfuel : 0 < tree.length := List.length_pos.mpr (by
      intro h
      rw [h] at hn
      simp at hn)
    have main : ∀ (l : List TreeNode), ∀ ps,
        ((n ∈ l ∧ n.level = 2) ∨ hasKey ps n.id) →
        hasKey (l.foldl (fun paths m =>
          if m.level = 2 then build_path tree tree.length m.id ("") paths else paths) ps) n.id := by
      intro l
      induction l with
      | nil =>
        intro ps h
        rcases h with ⟨h1, _⟩ | h1
        · simp at h1
        · exact h1
      | cons a t ih =>
        intro ps h
        rw [List.foldl_cons]
        rcases h with ⟨h1, h2⟩ | h1
        · rcases List.mem_cons.mp h1 with h3 | h3
          · subst h3
            rw [if_pos h2]
            exact ih _ (Or.inr (hasKey_build_path_self hfind hfuel _ ps))
          · by_cases ha : a.level = 2
            · rw [if_pos ha]
              exact ih _ (Or.inl ⟨h3, h2⟩)
            · rw [if_neg ha]
              exact ih _ (Or.inl ⟨h3, h2⟩)
        · by_cases ha : a.level = 2
          · rw [if_pos ha]
            exact ih _ (Or.inr (hasKey_build_path tree tree.length _ _ ps h1))
          · rw [if_neg ha]
            exact ih _ (Or.inr h1)
    exact main tree [] (Or.inl ⟨hn, hlvl⟩)

/-- Witness for C6 at a one-node tree whose node sits at level 2. -/
theorem extract_full_paths_amended_witness :
    ((∀ n ∈ ([⟨"R", "Root", 2, []⟩] : List TreeNode), n.level ≠ 2) →
      extract_full_paths [⟨"R", "Root", 2, []⟩] = []) ∧
    (∀ n ∈ ([⟨"R", "Root", 2, []⟩] : List TreeNode), n.level = 2 →
      hasKey (extract_full_paths [⟨"R", "Root", 2, []⟩]) n.id) ∧
    levelOfItem none = 2 :=
  extract_full_paths_amended [⟨"R", "Root", 2, []⟩]

/-! ### Flattened-path hierarchy (`export_website_hierarchy`, lines 872-918)

The website hierarchy is the JSON mapping `collection id -> "A/B/C" path`,
kept in insertion order.  For each entry the source recomputes title,
depth and parent path from the path string, and resolves `parent_id` by a
linear scan over the same mapping that `break`s at the FIRST entry whose
path equals the parent path. -/

/-- Python `s.split('/')`: `""` yields `[""]`. -/
def splitOnSlashAux : List Char → List Char → List String
  | [], acc => [String.mk acc.reverse]
  | c :: rest, acc =>
    if c = '/' then String.mk acc.reverse :: splitOnSlashAux rest []
    else splitOnSlashAux rest (c :: acc)

/-- Python `path.split('/')`. -/
def pySplitSlash (s : String) : List String := splitOnSlashAux s.data []

/-- Python `'/'.join(parts)`. -/
def joinSlash : List String → String
  | [] => ""
  | [p] => p
  | p :: ps => p ++ "/" ++ joinSlash ps

/-- Embedding of the first-match parent scan: `for p_id, p_path in
self.website_hierarchy.items(): if p_path == parent_path: parent_id = p_id;
break`, defaulting to the empty string. -/
def findParentId : List (String × String) → String → String
  | [], _ => ""
  | e :: rest, pp => if e.2 = pp then e.1 else findParentId rest pp

structure WebsiteHierRow where
  collection_id : String
  title : String
  path : String
  depth : Nat
  parent_id : String
  parent_path : String
deriving DecidableEq, Repr

/-- Embedding of `export_website_hierarchy` (lines 890-911): one row per
mapping entry, with the parent resolved by `findParentId`. -/
def export_website_hierarchy (wh : List (String × String)) : List WebsiteHierRow :=
  wh.map (fun e =>
    let parts := pySplitSlash e.2
    let title := parts.getLastD ("")
    let depth := parts.length - 1
    let parent_path := if parts.length > 1 then joinSlash parts.dropLast else ""
    ⟨e.1, title, e.2, depth, findParentId wh parent_path, parent_path⟩)

/-! ### Claim C7 -/

/-- For the C7 counterexample: two distinct nodes `P1` and `P2` both claim
the flattened path `"A"`, and a third node has path `"A/B"`. -/
def ambiguousWh : List (String × String) := [("P1", "A"), ("P2", "A"), ("C", "A/B")]

/-- C7 is false as stated: with two distinct nodes claiming the identical
flattened path `"A"`, the build does not fail with any error — it emits a
row for every entry and silently resolves the parent of `"A/B"` to the
first matching node `P1`. -/
theorem export_website_hierarchy_counterexample :
    ("P1" : String) ≠ ("P2") ∧
    (ambiguousWh.filter (fun e => decide (e.2 = ("A" : String)))).length = 2 ∧
    export_website_hierarchy ambiguousWh =
      [⟨"P1", "A", "A", 0, "", ""⟩, ⟨"P2", "A", "A", 0, "", ""⟩,
       ⟨"C", "B", "A/B", 1, "P1", "A"⟩] := by
  refine ⟨by decide, by decide, ?_⟩
  rfl

/-- C7 (amended): when two distinct collection nodes claim an identical
flattened path string, the hierarchy build does not fail — no
`AmbiguousPathError` exists in the source; the build always emits exactly
one row per mapping entry and silently resolves each parent reference to
the FIRST node in mapping order whose path equals the parent path (empty
string when there is none). -/
theorem export_website_hierarchy_amended (wh : List (String × String)) :
    (export_website_hierarchy wh).length = wh.length ∧
    (∀ pp : String, findParentId wh pp
      = ((wh.find? (fun e => decide (e.2 = pp))).map Prod.fst).getD ("")) := by
  constructor
  · exact List.length_map _ _
  · intro pp
    induction wh with
    | nil => rfl
    | cons e rest ih =>
      rw [findParentId, List.find?_cons]
      by_cases h : e.2 = pp
      · rw [if_pos h]
        have : decide (e.2 = pp) = true := by simp [h]
        rw [this]
        rfl
      · rw [if_neg h]
        have : decide (e.2 = pp) = false := by simp [h]
        rw [this]
        exact ih

/-! ### Dual-source reconciliation of depth and path
(`extract_from_rdf` lines 146-148 and `process_libraries` lines 331-341)

`website_path = self.website_hierarchy.get(coll_id, "")`;
`depth = len(website_path.split('/')) - 1 if website_path else 0`; and in
`process_libraries`, `'path': website_path if website_path else title`. -/

/-- Lookup in the website-hierarchy dict with default `""`
(`self.website_hierarchy.get(coll_id, "")`). -/
def websitePathOf (wh : List (String × String)) (cid : String) : String :=
  ((wh.find? (fun e => decide (e.1 = cid))).map Prod.snd).getD ("")

/-- Embedding of the depth computation of `extract_from_rdf` (line 148). -/
def depth_of_collection (wh : List (String × String)) (cid : String) : Nat :=
  let wp := websitePathOf wh cid
  if wp = "" then 0 else (pySplitSlash wp).length - 1

/-- Embedding of the path fallback of `process_libraries` (line 339):
`website_path if website_path else title`. -/
def resolved_path (website_path title : String) : String :=
  if website_path = "" then title else website_path

/-! ### Claim C8 -/

/-- C8: if the website path map contains a path for a collection, its depth
equals the number of path segments minus one (this also covers a contained
empty path, whose single empty segment gives depth 0); if the collection is
absent from the map, it falls back to depth 0 and path equal to its
title. -/
theorem collection_depth_path_spec (wh : List (String × String))
    (cid title : String) :
    (∀ e, wh.find? (fun e => decide (e.1 = cid)) = some e →
      depth_of_collection wh cid = (pySplitSlash e.2).length - 1) ∧
    (wh.find? (fun e => decide (e.1 = cid)) = none →
      depth_of_collection wh cid = 0 ∧
      resolved_path (websitePathOf wh cid) title = title) := by
  constructor
  · intro e he
    rw [depth_of_collection]
    have hwp : websitePathOf wh cid = e.2 := by
      rw [websitePathOf, he]
      rfl
    rw [hwp]
    by_cases h : e.2 = ""
    · rw [if_pos h, h]
      rfl
    · rw [if_neg h]
  · intro hnone
    have hwp : websitePathOf wh cid = "" := by
      rw [websitePathOf, hnone]
      rfl
    constructor
    · rw [depth_of_collection, hwp]
      rfl
    · rw [hwp, resolved_path, if_pos rfl]

/-- Witness for C8: a present entry `("C", "Fish/Salmon")` gives depth 1;
an absent id gives depth 0 and falls back to the title. -/
theorem collection_depth_path_spec_witness :
    (([("C", "Fish/Salmon")] : List (String × String)).find?
        (fun e => decide (e.1 = ("C" : String))) = some ("C", "Fish/Salmon") ∧
      depth_of_collection [("C", "Fish/Salmon")] ("C")
        = (pySplitSlash ("Fish/Salmon")).length - 1) ∧
    (([("C", "Fish/Salmon")] : List (String × String)).find?
        (fun e => decide (e.1 = ("X" : String))) = none ∧
      depth_of_collection [("C", "Fish/Salmon")] ("X") = 0 ∧
      resolved_path (websitePathOf [("C", "Fish/Salmon")] ("X")) ("Trout") = ("Trout")) :=
  ⟨⟨by decide, (collection_depth_path_spec [("C", "Fish/Salmon")] ("C") ("Trout")).1
      ("C", "Fish/Salmon") (by decide)⟩,
   ⟨by decide, (collection_depth_path_spec [("C", "Fish/Salmon")] ("X") ("Trout")).2
      (by decide)⟩⟩

/-! ### Relation-edge hierarchy (`extract_from_rdf`, lines 122-175)

For each `z:Collection` element with a truthy `rdf:about` and a truthy
title text, the source appends a collection row and, when the
`dcterms:isPartOf` resource is truthy, adds the edge
`(parent, collection)` to the `networkx` DiGraph.  There is no cycle
detection anywhere: `DiGraph.add_edge` accepts arbitrary edges, no
topological order is ever computed, and no `CycleError` exists in the
source.  `parentRef` models the final value of the Python variable
`parent` (None when the `isPartOf` element or its `rdf:resource` attribute
is absent). -/

structure RawCollection where
  about : Option String
  title : Option String
  parentRef : Option String
deriving DecidableEq, Repr

structure CollRow where
  collection_id : String
  title : String
  parent_id : Option String
  library : String
  website_path : String
  depth : Nat
deriving DecidableEq, Repr

/-- Python truthiness of an optional string: `None` and `""` are falsy. -/
def truthy : Option String → Option String
  | some s => if s = "" then none else some s
  | none => none

/-- The collection row `extract_from_rdf` appends for one well-formed
`z:Collection` element (`None` when the element is skipped). -/
def rowOf (wh : List (String × String)) (library : String) (c : RawCollection) :
    Option CollRow :=
  match truthy c.about with
  | none => none
  | some cid =>
    match truthy c.title with
    | none => none
    | some t =>
      let wp := websitePathOf wh cid
      some ⟨cid, t, c.parentRef, library, wp,
        if wp = "" then 0 else (pySplitSlash wp).length - 1⟩

/-- One iteration of the collection loop of `extract_from_rdf`:
accumulates the `collections_data` rows and the hierarchy-graph edges
`(parent, child)`. -/
def extract_step (wh : List (String × String)) (library : String)
    (acc : List CollRow × List (String × String)) (c : RawCollection) :
    List CollRow × List (String × String) :=
  match truthy c.about with
  | none => acc
  | some cid =>
    match truthy c.title with
    | none => acc
    | some t =>
      let wp := websitePathOf wh cid
      let row : CollRow := ⟨cid, t, c.parentRef, library, wp,
        if wp = "" then 0 else (pySplitSlash wp).length - 1⟩
      let edges := match truthy c.parentRef with
        | some p => acc.2 ++ [(p, cid)]
        | none => acc.2
      (acc.1 ++ [row], edges)

/-- Embedding of the collection extraction of `extract_from_rdf`: the
collection rows and the relation edges, in document order. -/
def extract_from_rdf_collections (wh : List (String × String)) (library : String)
    (colls : List RawCollection) : List CollRow × List (String × String) :=
  colls.foldl (extract_step wh library) ([], [])

/-! ### Claim C1 -/

/-- The cyclic relation-edge input `A -> B -> A` for the C1 counterexample:
collection `A` names `B` as parent and `B` names `A`. -/
def cycColls : List RawCollection :=
  [⟨some "A", some "TA", some "B"⟩, ⟨some "B", some "TB", some "A"⟩]

/-- C1 is false as stated: on the edge cycle `A -> B -> A` the hierarchy
build raises nothing — there is no `CycleError`; both cyclic edges are
stored in the hierarchy graph, both collection rows are emitted, and the
library's collections therefore stay in the statistics instead of being
excluded. -/
theorem extract_from_rdf_cycle_counterexample :
    (extract_from_rdf_collections [] ("Portal") cycColls).2 = [("B", "A"), ("A", "B")] ∧
    (extract_from_rdf_collections [] ("Portal") cycColls).1 =
      [⟨"A", "TA", some "B", "Portal", "", 0⟩, ⟨"B", "TB", some "A", "Portal", "", 0⟩] := by
  constructor
  · rfl
  · rfl

/-- C1 (amended): the relation-edge hierarchy build never fails — cyclic or
not, for every input it emits exactly the rows of the well-formed
collection elements (truthy id and title), so an edge cycle `A -> B -> A`
does not exclude that library's collections from the statistics. -/
theorem extract_from_rdf_total (wh : List (String × String)) (library : String)
    (colls : List RawCollection) :
    (extract_from_rdf_collections wh library colls).1
      = colls.filterMap (rowOf wh library) := by
  rw [extract_from_rdf_collections]
  have main : ∀ (l : List RawCollection) (acc : List CollRow × List (String × String)),
      (l.foldl (extract_step wh library) acc).1 = acc.1 ++ l.filterMap (rowOf wh library) := by
    intro l
    induction l with
    | nil => intro acc; simp
    | cons c rest ih =>
      intro acc
      rw [List.foldl_cons, ih, List.filterMap_cons]
      rw [extract_step, rowOf]
      cases truthy c.about with
      | none => simp
      | some cid =>
        cases truthy c.title with
        | none => simp
        | some t =>
          cases truthy c.parentRef with
          | none => simp
          | some p => simp
  rw [main]
  simp

/-! ### Title-to-collections mapping (`process_libraries`, lines 316-375)

For each item of a library (in DataFrame order) the source collects the
item's collection memberships; if the item has NO membership rows the
whole block is skipped, otherwise the dict entry for the item's normalized
title gets its per-library list REPLACED by this item's details
(`title_to_collections[norm_title]['Portal'] = collection_details`).  The
Python dict is an association list in insertion order; each collection id
resolves through the collections table by first match, with the
website-path fallback to the collection title. -/

structure ItemRow where
  item_id : String
  title : String
  normalized_title : String
deriving DecidableEq, Repr

structure CollItemRow where
  collection_id : String
  item_id : String
deriving DecidableEq, Repr

structure CollDetail where
  id : String
  title : String
  path : String
  depth : Nat
deriving DecidableEq, Repr

structure TitleEntry where
  portal : List CollDetail
  search : List CollDetail
deriving DecidableEq, Repr

/-- Resolve one membership row's collection against the collections table
(lines 332-341): skipped when the id is unknown, otherwise the detail dict
with the path fallback to the title. -/
def detailOf (colls : List CollRow) (cid : String) : Option CollDetail :=
  (colls.find? (fun c => decide (c.collection_id = cid))).map (fun c =>
    ⟨cid, c.title, if c.website_path = "" then c.title else c.website_path, c.depth⟩)

/-- The membership rows of one item
(`collection_items[collection_items['item_id'] == item_id]`). -/
def membRows (coll_items : List CollItemRow) (item_id : String) : List CollItemRow :=
  coll_items.filter (fun ci => decide (ci.item_id = item_id))

/-- The `collection_details` list built for one item. -/
def collection_details (coll_items : List CollItemRow) (colls : List CollRow)
    (item_id : String) : List CollDetail :=
  (membRows coll_items item_id).filterMap (fun ci => detailOf colls ci.collection_id)

/-- Python dict update `d[t]['Portal'] = details` combined with the
insert-on-missing branch `d[t] = {'Portal': details, 'Search': []}`. -/
def setPortal : List (String × TitleEntry) → String → List CollDetail →
    List (String × TitleEntry)
  | [], t, d => [(t, ⟨d, []⟩)]
  | e :: rest, t, d =>
    if e.1 = t then (e.1, ⟨d, e.2.search⟩) :: rest else e :: setPortal rest t d

/-- The symmetric update for the Search library. -/
def setSearch : List (String × TitleEntry) → String → List CollDetail →
    List (String × TitleEntry)
  | [], t, d => [(t, ⟨[], d⟩)]
  | e :: rest, t, d =>
    if e.1 = t then (e.1, ⟨e.2.portal, d⟩) :: rest else e :: setSearch rest t d

/-- One iteration of the Portal item loop (lines 320-346). -/
def stepPortal (coll_items : List CollItemRow) (colls : List CollRow)
    (m : List (String × TitleEntry)) (item : ItemRow) : List (String × TitleEntry) :=
  if (membRows coll_items item.item_id).isEmpty then m
  else setPortal m item.normalized_title
    (collection_details coll_items colls item.item_id)

/-- One iteration of the Search item loop (lines 348-375). -/
def stepSearch (coll_items : List CollItemRow) (colls : List CollRow)
    (m : List (String × TitleEntry)) (item : ItemRow) : List (String × TitleEntry) :=
  if (membRows coll_items item.item_id).isEmpty then m
  else setSearch m item.normalized_title
    (collection_details coll_items colls item.item_id)

/-- Embedding of the construction of `title_to_collections`: the Portal
loop followed by the Search loop, starting from the empty dict. -/
def title_to_collections (pItems : List ItemRow) (pCollItems : List CollItemRow)
    (pColls : List CollRow) (sItems : List ItemRow) (sCollItems : List CollItemRow)
    (sColls : List CollRow) : List (String × TitleEntry) :=
  sItems.foldl (stepSearch sCollItems sColls)
    (pItems.foldl (stepPortal pCollItems pColls) [])

/-- The Portal component stored for a normalized title. -/
def getPortal (m : List (String × TitleEntry)) (t : String) : Option (List CollDetail) :=
  (m.find? (fun e => decide (e.1 = t))).map (fun e => e.2.portal)

/-- The items whose iteration actually writes the entry of title `t`:
those with that normalized title AND at least one membership row. -/
def claimsTitle (coll_items : List CollItemRow) (t : String) (i : ItemRow) : Bool :=
  decide (i.normalized_title = t) && !(membRows coll_items i.item_id).isEmpty

theorem getPortal_setPortal_self (m : List (String × TitleEntry)) (t : String)
    (d : List CollDetail) : getPortal (setPortal m t d) t = some d := by
  induction m with
  | nil => simp [setPortal, getPortal, List.find?]
  | cons e rest ih =>
    rw [setPortal]
    by_cases h : e.1 = t
    · rw [if_pos h, getPortal, List.find?_cons]
      simp [h]
    · rw [if_neg h, getPortal, List.find?_cons]
      have hd : decide (e.1 = t) = false := by simp [h]
      rw [hd]
      exact ih

theorem getPortal_setPortal_ne (m : List (String × TitleEntry)) {t t' : String}
    (d : List CollDetail) (h : t' ≠ t) :
    getPortal (setPortal m t d) t' = getPortal m t' := by
  induction m with
  | nil =>
    rw [setPortal, getPortal, getPortal]
    simp [Ne.symm h]
  | cons e rest ih =>
    rw [setPortal]
    by_cases he : e.1 = t
    · rw [if_pos he, getPortal, getPortal, List.find?_cons, List.find?_cons]
      have hd : decide (e.1 = t') = false := by simp [he, Ne.symm h]
      rw [hd]
    · rw [if_neg he, getPortal, getPortal, List.find?_cons, List.find?_cons]
      by_cases he' : e.1 = t'
      · have hd : decide (e.1 = t') = true := by simp [he']
        rw [hd]
      · have hd : decide (e.1 = t') = false := by simp [he']
        rw [hd]
        exact ih

theorem getPortal_setSearch (m : List (String × TitleEntry)) (t' : String)
    (d : List CollDetail) {t : String} {l : List CollDetail}
    (h : getPortal m t = some l) : getPortal (setSearch m t' d) t = some l := by
  induction m with
  | nil => simp [getPortal] at h
  | cons e rest ih =>
    rw [getPortal, List.find?_cons] at h
    rw [setSearch]
    by_cases he : e.1 = t'
    · rw [if_pos he, getPortal, List.find?_cons]
      by_cases het : e.1 = t
      · have hd : decide (e.1 = t) = true := by simp [het]
        rw [hd] at h
        rw [hd]
        simpa using h
      · have hd : decide (e.1 = t) = false := by simp [het]
        rw [hd] at h
        rw [hd]
        exact h
    · rw [if_neg he, getPortal, List.find?_cons]
      by_cases het : e.1 = t
      · have hd : decide (e.1 = t) = true := by simp [het]
        rw [hd] at h
        rw [hd]
        exact h
      · have hd : decide (e.1 = t) = false := by simp [het]
        rw [hd] at h
        rw [hd]
        exact ih h

theorem stepSearch_getPortal (coll_items : List CollItemRow) (colls : List CollRow)
    (m : List (String × TitleEntry)) (item : ItemRow) {t : String} {l : List CollDetail}
    (h : getPortal m t = some l) :
    getPortal (stepSearch coll_items colls m item) t = some l := by
  rw [stepSearch]
  by_cases hm : (membRows coll_items item.item_id).isEmpty
  · rw [if_pos hm]
    exact h
  · rw [if_neg hm]
    exact getPortal_setSearch m _ _ h

theorem getLast?_cons_cases {α : Type} (a : α) (l : List α) :
    (a :: l).getLast? = (match l.getLast? with
      | none => some a
      | some b => some b) := by
  cases hl : l.getLast? with
  | none =>
    rw [List.getLast?_eq_none_iff] at hl
    subst hl
    rfl
  | some b =>
    cases l with
    | nil => simp at hl
    | cons x xs => rw [List.getLast?_cons_cons, hl]

theorem foldl_stepPortal_getPortal (coll_items : List CollItemRow) (colls : List CollRow)
    (items : List ItemRow) (t : String) :
    ∀ m, getPortal (items.foldl (stepPortal coll_items colls) m) t
      = (match (items.filter (claimsTitle coll_items t)).getLast? with
        | some i => some (collection_details coll_items colls i.item_id)
        | none => getPortal m t) := by
  induction items with
  | nil => intro m; rfl
  | cons i rest ih =>
    intro m
    rw [List.foldl_cons, ih]
    by_cases hc : claimsTitle coll_items t i = true
    · rw [List.filter_cons_of_pos hc, getLast?_cons_cases]
      cases hlast : (rest.filter (claimsTitle coll_items t)).getLast? with
      | some j => rfl
      | none =>
        rw [claimsTitle] at hc
        have hnorm : i.normalized_title = t :=
          of_decide_eq_true ((Bool.and_eq_true _ _).mp hc).1
        have hmemb : (membRows coll_items i.item_id).isEmpty = false := by
          have := ((Bool.and_eq_true _ _).mp hc).2
          simpa using this
        show getPortal (stepPortal coll_items colls m i) t = _
        rw [stepPortal, if_neg (by simp [hmemb]), hnorm]
        exact getPortal_setPortal_self _ _ _
    · rw [List.filter_cons_of_neg hc]
      have hstep : getPortal (stepPortal coll_items colls m i) t = getPortal m t := by
        rw [stepPortal]
        by_cases hm : (membRows coll_items i.item_id).isEmpty
        · rw [if_pos hm]
        · rw [if_neg hm]
          apply getPortal_setPortal_ne
          intro he
          apply hc
          rw [claimsTitle, Bool.and_eq_true]
          exact ⟨decide_eq_true he.symm, by simpa using hm⟩
      rw [hstep]

/-! ### Claim C10 -/

/-- Two Portal items sharing the normalized title `"t"` for the C10
counterexample; only the first has a membership row. -/
def c10items : List ItemRow := [⟨"i1", "T", "t"⟩, ⟨"i2", "T", "t"⟩]

/-- The single membership row, belonging to the FIRST item. -/
def c10collItems : List CollItemRow := [⟨"C1", "i1"⟩]

/-- The Portal collections table for the C10 theorems. -/
def c10colls : List CollRow := [⟨"C1", "Fish", none, "Portal", "", 0⟩]

/-- C10 is false as stated: `i2` is the last item sharing the normalized
title `"t"` and has no membership rows, so the claim says its (empty)
collection list is retained; the code instead skips membership-less items
entirely and keeps `i1`'s collection list. -/
theorem title_to_collections_claim_counterexample :
    c10items.map (fun i => i.normalized_title) = ["t", "t"] ∧
    c10items.getLast? = some ⟨"i2", "T", "t"⟩ ∧
    collection_details c10collItems c10colls ("i2") = [] ∧
    getPortal (title_to_collections c10items c10collItems c10colls [] [] []) ("t")
      = some [⟨"C1", "Fish", "Fish", 0⟩] := by
  refine ⟨rfl, rfl, rfl, rfl⟩

/-- C10 (amended): in the title-to-collections mapping, when several items
of the same library share a normalized title, the retained collection
memberships are those of the LAST such item in iteration order that has at
least one membership row (items without membership rows are skipped and
overwrite nothing); so the per-collection statistics count each normalized
title's memberships from that single item, not the union over all items
with that title. -/
theorem title_to_collections_last_claimer
    (pItems : List ItemRow) (pCollItems : List CollItemRow) (pColls : List CollRow)
    (sItems : List ItemRow) (sCollItems : List CollItemRow) (sColls : List CollRow)
    (t : String) (i : ItemRow)
    (h : (pItems.filter (claimsTitle pCollItems t)).getLast? = some i) :
    getPortal (title_to_collections pItems pCollItems pColls sItems sCollItems sColls) t
      = some (collection_details pCollItems pColls i.item_id) := by
  rw [title_to_collections]
  have h1 : getPortal (pItems.foldl (stepPortal pCollItems pColls) []) t
      = some (collection_details pCollItems pColls i.item_id) := by
    rw [foldl_stepPortal_getPortal, h]
  exact foldl_invariant _
    (fun m item hm => stepSearch_getPortal sCollItems sColls m item hm) sItems _ h1

/-- Membership rows for the C10 witness: one row per item. -/
def c10collItemsW : List CollItemRow := [⟨"C1", "i1"⟩, ⟨"C2", "i2"⟩]

/-- Collections table for the C10 witness. -/
def c10collsW : List CollRow :=
  [⟨"C1", "Fish", none, "Portal", "", 0⟩, ⟨"C2", "Lakes", none, "Portal", "", 0⟩]

/-- Witness for C10: with both items claiming `"t"`, the retained Portal
memberships are exactly those of the last claimer `i2`. -/
theorem title_to_collections_last_claimer_witness :
    ((c10items.filter (claimsTitle c10collItemsW ("t"))).getLast?
      = some ⟨"i2", "T", "t"⟩) ∧
    getPortal (title_to_collections c10items c10collItemsW c10collsW [] [] []) ("t")
      = some (collection_details c10collItemsW c10collsW ("i2")) :=
  ⟨by decide, title_to_collections_last_claimer c10items c10collItemsW c10collsW
    [] [] [] ("t") ⟨"i2", "T", "t"⟩ (by decide)⟩

end ZoteroComp
